import Mathlib

/-!
Shallow embedding of `src/ringbuffer.h`: a fixed-capacity circular queue of
references to `OPPLE_QUEUE` records, with producer pointer `in`, consumer
pointer `out`, bounds `start`/`end`, 16-bit capacity `size` and 16-bit
occupancy counter `sount` (the source's spelling).

Modelling choices:
* an entry reference (`OPPLE_QUEUE *`) is an abstract numeric value;
* pointers into the caller-supplied array `dataptr` are slot indices relative
  to `&dataptr[0]`, so `start` is 0 and `end` is `size`;
* the contents of `dataptr` are a separate map `Mem` from slot index to the
  reference stored there, threaded through the mutating operations;
* the 16-bit fields wrap with an explicit `% 65536` exactly where the C
  unsigned arithmetic wraps;
* the `printf` inside `ringbuffer_insert` has no effect on buffer state and
  is not modelled.
-/

/-- An entry reference (`OPPLE_QUEUE *` in the source), as an abstract value. -/
abbrev EntryRef := Nat

/-- The contents of the caller-supplied backing array `dataptr`: a map from
slot index to the entry reference currently stored in that slot. -/
abbrev Mem := Nat → EntryRef

/-- The `ringbuffer_t` management structure.  `in_` and `endp` stand for the
source's `in` and `end` fields, which are reserved words in Lean. -/
structure ringbuffer_t where
  in_ : Nat
  out : Nat
  start : Nat
  endp : Nat
  size : Nat
  sount : Nat
deriving Repr, DecidableEq

/-- `ringbuffer_init`: binds the buffer to `dataptr` (slot 0 is index 0, the
one-past-the-end pointer is index `size`) and zeroes the cursors and the
counter.  Every field is assigned, so any previous state is discarded. -/
def ringbuffer_init (size : Nat) : ringbuffer_t :=
  { in_ := 0, out := 0, start := 0, endp := size, size := size, sount := 0 }

/-- `ringbuffer_get_count`: returns the `sount` field. -/
def ringbuffer_get_count (buffer : ringbuffer_t) : Nat :=
  buffer.sount

/-- `ringbuffer_get_free_count`: `buffer->size - ringbuffer_get_count(buffer)`
computed in C unsigned 16-bit arithmetic (a negative int difference is
converted back to `uint16_t`, i.e. taken mod 65536). -/
def ringbuffer_get_free_count (buffer : ringbuffer_t) : Nat :=
  (buffer.size + 65536 - ringbuffer_get_count buffer) % 65536

/-- `ringbuffer_is_empty`: `ringbuffer_get_count(buffer) == 0`. -/
def ringbuffer_is_empty (buffer : ringbuffer_t) : Bool :=
  ringbuffer_get_count buffer == 0

/-- `ringbuffer_is_full`: `ringbuffer_get_count(buffer) == buffer->size`. -/
def ringbuffer_is_full (buffer : ringbuffer_t) : Bool :=
  ringbuffer_get_count buffer == buffer.size

/-- `ringbuffer_insert`: stores `Data` through the `in` pointer, advances `in`
with wraparound to `start` when it reaches `end`, and increments the 16-bit
counter.  No capacity check is performed. -/
def ringbuffer_insert (buffer : ringbuffer_t) (mem : Mem) (Data : EntryRef) :
    ringbuffer_t × Mem :=
  let mem2 : Mem := fun i => if i = buffer.in_ then Data else mem i
  let in1 := buffer.in_ + 1
  let in2 := if in1 = buffer.endp then buffer.start else in1
  ({ buffer with in_ := in2, sount := (buffer.sount + 1) % 65536 }, mem2)

/-- `ringbuffer_remove`: reads the reference at the `out` pointer, advances
`out` with wraparound, decrements the 16-bit counter (wrapping to 65535 from
0), and returns the reference.  No emptiness check is performed. -/
def ringbuffer_remove (buffer : ringbuffer_t) (mem : Mem) :
    (ringbuffer_t × Mem) × EntryRef :=
  let Data := mem buffer.out
  let out1 := buffer.out + 1
  let out2 := if out1 = buffer.endp then buffer.start else out1
  (({ buffer with out := out2, sount := (buffer.sount + 65535) % 65536 }, mem), Data)

/-- `ringbuffer_peek`: returns the reference at the `out` pointer; the buffer
and the backing array are untouched (the C function performs no write). -/
def ringbuffer_peek (buffer : ringbuffer_t) (mem : Mem) :
    (ringbuffer_t × Mem) × EntryRef :=
  ((buffer, mem), mem buffer.out)

/-- A single call made by a client: either `ringbuffer_insert` with a value or
`ringbuffer_remove`. -/
inductive Op where
  | insert (v : EntryRef)
  | remove
deriving Repr, DecidableEq

/-- One client call executed against the embedded ring buffer; `remove`
produces the returned reference as an observable output. -/
def ringStep (s : ringbuffer_t × Mem) : Op → (ringbuffer_t × Mem) × Option EntryRef
  | Op.insert v => (ringbuffer_insert s.1 s.2 v, none)
  | Op.remove => ((ringbuffer_remove s.1 s.2).1, some (ringbuffer_remove s.1 s.2).2)

/-- Executes a call sequence against the ring buffer, collecting the
references returned by the `remove` calls in order. -/
def ringRun (s : ringbuffer_t × Mem) : List Op → (ringbuffer_t × Mem) × List EntryRef
  | [] => (s, [])
  | op :: ops =>
    ((ringRun (ringStep s op).1 ops).1,
      (ringStep s op).2.toList ++ (ringRun (ringStep s op).1 ops).2)

/-- Modelled from the spec: the FIFO reference model of a capacity-`N` queue.
The pending entries are a list in insertion order; `insert` appends when the
queue is not full and `remove` returns the head (the entry inserted earliest
among those not yet removed) when the queue is not empty.  A call that would
violate the full/empty precondition yields `none`. -/
def specStep (N : Nat) (q : List EntryRef) :
    Op → Option (List EntryRef × Option EntryRef)
  | Op.insert v => if q.length < N then some (q ++ [v], none) else none
  | Op.remove =>
    match q with
    | [] => none
    | x :: xs => some (xs, some x)

/-- Modelled from the spec: runs a call sequence on the FIFO reference model,
collecting removed entries in order; `none` when some call violates the
full/empty preconditions. -/
def specRun (N : Nat) (q : List EntryRef) :
    List Op → Option (List EntryRef × List EntryRef)
  | [] => some (q, [])
  | op :: ops =>
    (specStep N q op).bind fun so =>
      (specRun N so.1 ops).map fun r => (r.1, so.2.toList ++ r.2)

/-- Coupling invariant between a ring-buffer state `s` and the abstract queue
`q` it represents: the geometry fields are those set by `ringbuffer_init N`,
both cursors are in range, the counter equals the number of pending entries,
the `in` cursor is `out + |q|` modulo `N`, and slot `(out + i) % N` of the
backing array holds the `i`-th pending entry. -/
def RBInv (N : Nat) (s : ringbuffer_t × Mem) (q : List EntryRef) : Prop :=
  N < 65536 ∧ s.1.start = 0 ∧ s.1.endp = N ∧ s.1.size = N ∧
    s.1.in_ < N ∧ s.1.out < N ∧ q.length ≤ N ∧
    s.1.sount = q.length ∧ s.1.in_ = (s.1.out + q.length) % N ∧
    ∀ i, i < q.length → s.2 ((s.1.out + i) % N) = q.getD i 0

/-- Number of `insert` calls in a call sequence. -/
def numIns : List Op → Nat
  | [] => 0
  | Op.insert _ :: ops => numIns ops + 1
  | Op.remove :: ops => numIns ops

/-- Number of `remove` calls in a call sequence. -/
def numRem : List Op → Nat
  | [] => 0
  | Op.insert _ :: ops => numRem ops
  | Op.remove :: ops => numRem ops + 1

/-- Scenario state for the capacity-3 walkthrough: fresh buffer, backing array
initially all zeros. -/
def c3s0 : ringbuffer_t × Mem := (ringbuffer_init 3, fun _ => 0)

/-- Scenario state after `insert(A); insert(B); insert(C)` with A=10, B=20,
C=30. -/
def c3s3 : ringbuffer_t × Mem :=
  (ringRun c3s0 [Op.insert 10, Op.insert 20, Op.insert 30]).1

/-- Scenario result of the first `remove()`. -/
def c3r1 : (ringbuffer_t × Mem) × List EntryRef := ringRun c3s3 [Op.remove]

/-- Scenario state after the wrapped `insert(D)` with D=40. -/
def c3s4 : ringbuffer_t × Mem := (ringRun c3r1.1 [Op.insert 40]).1

/-- Scenario result of the final `remove(); remove(); remove()`. -/
def c3r2 : (ringbuffer_t × Mem) × List EntryRef :=
  ringRun c3s4 [Op.remove, Op.remove, Op.remove]

/-- A concrete buffer state that is full at the maximum 16-bit capacity
65535 (reachable by `ringbuffer_init 65535` followed by 65535 inserts). -/
def fullMax : ringbuffer_t :=
  { in_ := 0, out := 0, start := 0, endp := 65535, size := 65535, sount := 65535 }

/-- A concrete full buffer of capacity 3 (reachable by `ringbuffer_init 3`
followed by three inserts, after which the write cursor has wrapped to 0). -/
def full3 : ringbuffer_t :=
  { in_ := 0, out := 0, start := 0, endp := 3, size := 3, sount := 3 }

/-- The source's wraparound step `if (++p == end) p = start` expressed on
indices: advancing an in-range cursor is increment modulo the capacity. -/
theorem wrap_succ (i N : Nat) (h : i < N) :
    (if i + 1 = N then 0 else i + 1) = (i + 1) % N := by
  by_cases hc : i + 1 = N
  · simp [hc]
  · have hlt : i + 1 < N := by omega
    simp [hc, Nat.mod_eq_of_lt hlt]

/-- Two distinct offsets below `N` land in distinct slots after shifting by a
common base and reducing modulo `N`. -/
theorem mod_shift_ne (o i j N : Nat) (hi : i < N) (hj : j < N) (hij : i ≠ j) :
    (o + i) % N ≠ (o + j) % N := by
  intro hEq
  have h2 : Nat.ModEq N i j := Nat.ModEq.add_left_cancel' o hEq
  have h3 : i % N = j % N := h2
  rw [Nat.mod_eq_of_lt hi, Nat.mod_eq_of_lt hj] at h3
  exact hij h3

/-- A freshly initialized buffer represents the empty queue. -/
theorem RBInv_init (N : Nat) (mem : Mem) (h1 : 1 ≤ N) (h2 : N < 65536) :
    RBInv N (ringbuffer_init N, mem) [] := by
  refine ⟨h2, rfl, rfl, rfl, h1, h1, Nat.zero_le N, rfl, by simp [ringbuffer_init], ?_⟩
  intro i hi
  simp at hi

/-- `ringbuffer_insert` on a buffer coupled to a non-full queue `q` yields a
buffer coupled to `q ++ [v]`. -/
theorem RBInv_insert (N : Nat) (s : ringbuffer_t × Mem) (q : List EntryRef)
    (v : EntryRef) (h : RBInv N s q) (hlen : q.length < N) :
    RBInv N (ringbuffer_insert s.1 s.2 v) (q ++ [v]) := by
  obtain ⟨hN, hstart, hend, hsize, hin, hout, hqlen, hsount, hinq, hmem⟩ := h
  have hN0 : 0 < N := Nat.lt_of_le_of_lt (Nat.zero_le _) hin
  have hs' : ringbuffer_insert s.1 s.2 v
      = ({ s.1 with in_ := (s.1.in_ + 1) % N, sount := (s.1.sount + 1) % 65536 },
          fun i => if i = s.1.in_ then v else s.2 i) := by
    simp only [ringbuffer_insert]
    rw [hend, hstart, wrap_succ s.1.in_ N hin]
  rw [hs']
  refine ⟨hN, hstart, hend, hsize, Nat.mod_lt _ hN0, hout, ?_, ?_, ?_, ?_⟩
  · simp only [List.length_append, List.length_singleton]
    omega
  · show (s.1.sount + 1) % 65536 = (q ++ [v]).length
    simp only [List.length_append, List.length_singleton]
    rw [hsount]
    omega
  · show (s.1.in_ + 1) % N = (s.1.out + (q ++ [v]).length) % N
    simp only [List.length_append, List.length_singleton]
    rw [hinq, Nat.mod_add_mod]
    have harith : s.1.out + q.length + 1 = s.1.out + (q.length + 1) := by omega
    rw [harith]
  · intro i hi
    simp only [List.length_append, List.length_singleton] at hi
    show (if (s.1.out + i) % N = s.1.in_ then v else s.2 ((s.1.out + i) % N))
        = (q ++ [v]).getD i 0
    by_cases hiq : i = q.length
    · subst hiq
      rw [if_pos hinq.symm]
      rw [List.getD_append_right q [v] 0 q.length (Nat.le_refl _)]
      simp
    · have hiq2 : i < q.length := by omega
      have hne : (s.1.out + i) % N ≠ s.1.in_ := by
        rw [hinq]
        exact mod_shift_ne s.1.out i q.length N (by omega) hlen hiq
      rw [if_neg hne]
      rw [hmem i hiq2]
      exact (List.getD_append q [v] 0 i hiq2).symm

/-- `ringbuffer_remove` on a buffer coupled to the non-empty queue `x :: xs`
returns `x` and yields a buffer coupled to `xs`. -/
theorem RBInv_remove (N : Nat) (s : ringbuffer_t × Mem) (x : EntryRef)
    (xs : List EntryRef) (h : RBInv N s (x :: xs)) :
    (ringbuffer_remove s.1 s.2).2 = x ∧ RBInv N (ringbuffer_remove s.1 s.2).1 xs := by
  obtain ⟨hN, hstart, hend, hsize, hin, hout, hqlen, hsount, hinq, hmem⟩ := h
  have hN0 : 0 < N := Nat.lt_of_le_of_lt (Nat.zero_le _) hout
  have hs' : ringbuffer_remove s.1 s.2
      = (({ s.1 with out := (s.1.out + 1) % N, sount := (s.1.sount + 65535) % 65536 },
          s.2), s.2 s.1.out) := by
    simp only [ringbuffer_remove]
    rw [hend, hstart, wrap_succ s.1.out N hout]
  have hlen : (x :: xs).length = xs.length + 1 := List.length_cons x xs
  have hret : s.2 s.1.out = x := by
    have h0 := hmem 0 (by simp)
    rw [Nat.add_zero, Nat.mod_eq_of_lt hout] at h0
    simpa using h0
  rw [hs']
  refine ⟨hret, hN, hstart, hend, hsize, hin, Nat.mod_lt _ hN0, ?_, ?_, ?_, ?_⟩
  · rw [hlen] at hqlen
    omega
  · show (s.1.sount + 65535) % 65536 = xs.length
    rw [hsount, hlen]
    rw [hlen] at hqlen
    omega
  · show s.1.in_ = ((s.1.out + 1) % N + xs.length) % N
    rw [hinq, hlen, Nat.mod_add_mod]
    have harith : s.1.out + 1 + xs.length = s.1.out + (xs.length + 1) := by omega
    rw [harith]
  · intro i hi
    show s.2 (((s.1.out + 1) % N + i) % N) = xs.getD i 0
    have hidx : ((s.1.out + 1) % N + i) % N = (s.1.out + (i + 1)) % N := by
      rw [Nat.mod_add_mod]
      have harith : s.1.out + 1 + i = s.1.out + (i + 1) := by omega
      rw [harith]
    rw [hidx]
    have h1 := hmem (i + 1) (by rw [hlen]; omega)
    rw [h1]
    simp

/-- Simulation: a run of calls that the FIFO reference model accepts produces,
on the embedded ring buffer, exactly the reference model's outputs, and the
final states stay coupled. -/
theorem run_couple (ops : List Op) : ∀ (N : Nat) (s : ringbuffer_t × Mem)
    (q q2 outs : List EntryRef), RBInv N s q → specRun N q ops = some (q2, outs) →
    (ringRun s ops).2 = outs ∧ RBInv N (ringRun s ops).1 q2 := by
  induction ops with
  | nil =>
    intro N s q q2 outs hInv hrun
    simp only [specRun, Option.some.injEq, Prod.mk.injEq] at hrun
    obtain ⟨rfl, rfl⟩ := hrun
    exact ⟨rfl, hInv⟩
  | cons op ops ih =>
    intro N s q q2 outs hInv hrun
    simp only [specRun, Option.bind_eq_some, Option.map_eq_some'] at hrun
    obtain ⟨so, hstep, r, hrec, hr⟩ := hrun
    cases hr
    cases op with
    | insert v =>
      simp only [specStep] at hstep
      by_cases hlen : q.length < N
      · rw [if_pos hlen] at hstep
        cases hstep
        have hInv2 := RBInv_insert N s q v hInv hlen
        have hih := ih N (ringbuffer_insert s.1 s.2 v) (q ++ [v]) r.1 r.2 hInv2
          (by rw [hrec])
        refine ⟨?_, hih.2⟩
        show (Option.none.toList ++ (ringRun (ringbuffer_insert s.1 s.2 v) ops).2)
            = Option.none.toList ++ r.2
        rw [hih.1]
      · rw [if_neg hlen] at hstep
        cases hstep
    | remove =>
      cases q with
      | nil =>
        simp only [specStep] at hstep
        cases hstep
      | cons x xs =>
        simp only [specStep, Option.some.injEq] at hstep
        cases hstep
        have hrem := RBInv_remove N s x xs hInv
        have hih := ih N (ringbuffer_remove s.1 s.2).1 xs r.1 r.2 hrem.2
          (by rw [hrec])
        refine ⟨?_, hih.2⟩
        show ((some (ringbuffer_remove s.1 s.2).2).toList
            ++ (ringRun (ringbuffer_remove s.1 s.2).1 ops).2)
            = (some x).toList ++ r.2
        rw [hih.1, hrem.1]

/-- Bookkeeping on the reference model: a successful run turns the pending
count by the number of inserts minus the number of removes. -/
theorem specRun_length (ops : List Op) : ∀ (N : Nat) (q q2 outs : List EntryRef),
    specRun N q ops = some (q2, outs) →
    q.length + numIns ops = q2.length + numRem ops := by
  induction ops with
  | nil =>
    intro N q q2 outs h
    simp only [specRun, Option.some.injEq, Prod.mk.injEq] at h
    obtain ⟨rfl, rfl⟩ := h
    simp [numIns, numRem]
  | cons op ops ih =>
    intro N q q2 outs h
    simp only [specRun, Option.bind_eq_some, Option.map_eq_some'] at h
    obtain ⟨so, hstep, r, hrec, hr⟩ := h
    cases hr
    cases op with
    | insert v =>
      simp only [specStep] at hstep
      by_cases hlen : q.length < N
      · rw [if_pos hlen] at hstep
        cases hstep
        have := ih N (q ++ [v]) r.1 r.2 hrec
        simp only [List.length_append, List.length_singleton] at this
        simp only [numIns, numRem]
        omega
      · rw [if_neg hlen] at hstep
        cases hstep
    | remove =>
      cases q with
      | nil =>
        simp only [specStep] at hstep
        cases hstep
      | cons x xs =>
        simp only [specStep, Option.some.injEq] at hstep
        cases hstep
        have := ih N xs r.1 r.2 hrec
        simp only [numIns, numRem, List.length_cons]
        omega

/-- No call sequence changes the `size`, `start` or `end` fields of the
buffer. -/
theorem ringRun_frame (ops : List Op) : ∀ s : ringbuffer_t × Mem,
    ((ringRun s ops).1).1.size = s.1.size ∧
    ((ringRun s ops).1).1.start = s.1.start ∧
    ((ringRun s ops).1).1.endp = s.1.endp := by
  induction ops with
  | nil => intro s; exact ⟨rfl, rfl, rfl⟩
  | cons op ops ih =>
    intro s
    cases op with
    | insert v => exact ⟨(ih _).1, (ih _).2.1, (ih _).2.2⟩
    | remove => exact ⟨(ih _).1, (ih _).2.1, (ih _).2.2⟩

/-- A sequence of inserts adds its length to the counter, as long as the
16-bit counter does not overflow. -/
theorem sount_after_inserts (ops : List Op) : ∀ s : ringbuffer_t × Mem,
    (∀ o ∈ ops, ∃ v, o = Op.insert v) → s.1.sount + ops.length < 65536 →
    ((ringRun s ops).1).1.sount = s.1.sount + ops.length := by
  induction ops with
  | nil => intro s _ _; rfl
  | cons op ops ih =>
    intro s hall hlt
    obtain ⟨v, rfl⟩ := hall op (List.mem_cons_self op ops)
    simp only [List.length_cons] at hlt
    have hstep : (ringStep s (Op.insert v)).1.1.sount = s.1.sount + 1 := by
      show (s.1.sount + 1) % 65536 = s.1.sount + 1
      omega
    have hrest := ih (ringStep s (Op.insert v)).1
      (fun o ho => hall o (List.mem_cons_of_mem _ ho))
      (by rw [hstep]; omega)
    show ((ringRun (ringStep s (Op.insert v)).1 ops).1).1.sount
        = s.1.sount + (ops.length + 1)
    rw [hrest, hstep]
    omega

/-- C1: for every sequence of insert and remove calls on an initialized buffer
that never calls insert when the buffer is full nor remove when it is empty
(i.e. the FIFO reference model accepts the sequence), each remove returns
exactly the entry reference that was inserted earliest among those not yet
removed: the ring buffer's outputs equal the reference model's outputs. -/
theorem remove_returns_fifo (N : Nat) (mem : Mem) (ops : List Op)
    (q2 outs : List EntryRef) (hN1 : 1 ≤ N) (hN2 : N < 65536)
    (hspec : specRun N [] ops = some (q2, outs)) :
    (ringRun (ringbuffer_init N, mem) ops).2 = outs :=
  (run_couple ops N (ringbuffer_init N, mem) [] q2 outs
    (RBInv_init N mem hN1 hN2) hspec).1

/-- Witness for C1 at capacity 2 with inserts of 5 and 7 followed by two
removes: the removes return 5 then 7. -/
theorem remove_returns_fifo_witness :
    (ringRun (ringbuffer_init 2, fun _ => 0)
        [Op.insert 5, Op.insert 7, Op.remove, Op.remove]).2 = [5, 7] :=
  remove_returns_fifo 2 (fun _ => 0)
    [Op.insert 5, Op.insert 7, Op.remove, Op.remove] [] [5, 7]
    (by decide) (by decide) (by decide)

/-- C2: for every capacity N with 1 <= N < 65536 and every k <= N, after
initializing a buffer of capacity N and performing k insert calls with no
intervening remove, `ringbuffer_get_count` returns k and `ringbuffer_is_full`
returns true exactly when k equals N. -/
theorem count_after_k_inserts (N k : Nat) (mem : Mem) (ops : List Op)
    (hN1 : 1 ≤ N) (hN2 : N < 65536) (hk : k ≤ N) (hlen : ops.length = k)
    (hall : ∀ o ∈ ops, ∃ v, o = Op.insert v) :
    ringbuffer_get_count ((ringRun (ringbuffer_init N, mem) ops).1).1 = k ∧
    (ringbuffer_is_full ((ringRun (ringbuffer_init N, mem) ops).1).1 = true
      ↔ k = N) := by
  have hs := sount_after_inserts ops (ringbuffer_init N, mem) hall (by
    show (ringbuffer_init N).sount + ops.length < 65536
    simp only [ringbuffer_init, hlen, Nat.zero_add]
    omega)
  have hsize := (ringRun_frame ops (ringbuffer_init N, mem)).1
  constructor
  · show ((ringRun (ringbuffer_init N, mem) ops).1).1.sount = k
    rw [hs]
    show (ringbuffer_init N).sount + ops.length = k
    simp [ringbuffer_init, hlen]
  · show (((ringRun (ringbuffer_init N, mem) ops).1).1.sount
        == ((ringRun (ringbuffer_init N, mem) ops).1).1.size) = true ↔ k = N
    rw [hs, hsize]
    show ((ringbuffer_init N).sount + ops.length == (ringbuffer_init N).size)
        = true ↔ k = N
    simp [ringbuffer_init, hlen]

/-- Witness for C2 at capacity 2 with two inserts: the count is 2 and the
buffer reports full. -/
theorem count_after_k_inserts_witness :
    ringbuffer_get_count ((ringRun (ringbuffer_init 2, fun _ => 0)
        [Op.insert 1, Op.insert 2]).1).1 = 2 ∧
    (ringbuffer_is_full ((ringRun (ringbuffer_init 2, fun _ => 0)
        [Op.insert 1, Op.insert 2]).1).1 = true ↔ 2 = 2) :=
  count_after_k_inserts 2 2 (fun _ => 0) [Op.insert 1, Op.insert 2]
    (by decide) (by decide) (by decide) rfl
    (by
      intro o ho
      simp only [List.mem_cons, List.not_mem_nil, or_false] at ho
      rcases ho with rfl | rfl
      · exact ⟨1, rfl⟩
      · exact ⟨2, rfl⟩)

/-- C3: in a buffer of capacity 3 starting empty (A=10, B=20, C=30, D=40):
after insert(A); insert(B); insert(C) the buffer is full with count 3; a
remove returns A leaving count 2; the write cursor then sits on slot 0, so
insert(D) writes into slot 0 of the storage array (wrapped); three further
removes return B, C, D in order, leaving count 0 and the buffer empty. -/
theorem capacity_three_scenario :
    ringbuffer_is_full c3s3.1 = true ∧ ringbuffer_get_count c3s3.1 = 3 ∧
    c3r1.2 = [10] ∧ ringbuffer_get_count c3r1.1.1 = 2 ∧
    c3r1.1.1.in_ = 0 ∧ c3s4.2 0 = 40 ∧
    c3r2.2 = [20, 30, 40] ∧ ringbuffer_get_count c3r2.1.1 = 0 ∧
    ringbuffer_is_empty c3r2.1.1 = true := by
  decide

/-- C4: on every buffer state reachable by a precondition-respecting call
sequence, `ringbuffer_get_free_count` equals capacity minus
`ringbuffer_get_count`; the equation holds right after `ringbuffer_init`
(the empty run), after every insert/remove run, and still after a
`ringbuffer_peek` on the resulting state. -/
theorem free_count_eq_capacity_sub_count (N : Nat) (mem : Mem) (ops : List Op)
    (q2 outs : List EntryRef) (hN1 : 1 ≤ N) (hN2 : N < 65536)
    (hspec : specRun N [] ops = some (q2, outs)) :
    ringbuffer_get_free_count (ringbuffer_init N)
        = (ringbuffer_init N).size - ringbuffer_get_count (ringbuffer_init N) ∧
    ringbuffer_get_free_count ((ringRun (ringbuffer_init N, mem) ops).1).1
        = ((ringRun (ringbuffer_init N, mem) ops).1).1.size
          - ringbuffer_get_count ((ringRun (ringbuffer_init N, mem) ops).1).1 ∧
    ringbuffer_get_free_count
        (ringbuffer_peek ((ringRun (ringbuffer_init N, mem) ops).1).1
          ((ringRun (ringbuffer_init N, mem) ops).1).2).1.1
        = (ringbuffer_peek ((ringRun (ringbuffer_init N, mem) ops).1).1
            ((ringRun (ringbuffer_init N, mem) ops).1).2).1.1.size
          - ringbuffer_get_count
              (ringbuffer_peek ((ringRun (ringbuffer_init N, mem) ops).1).1
                ((ringRun (ringbuffer_init N, mem) ops).1).2).1.1 := by
  have hInv := (run_couple ops N (ringbuffer_init N, mem) [] q2 outs
    (RBInv_init N mem hN1 hN2) hspec).2
  obtain ⟨hN, _, _, hsize, _, _, hqlen, hsount, _, _⟩ := hInv
  have hmain : ringbuffer_get_free_count ((ringRun (ringbuffer_init N, mem) ops).1).1
      = ((ringRun (ringbuffer_init N, mem) ops).1).1.size
        - ringbuffer_get_count ((ringRun (ringbuffer_init N, mem) ops).1).1 := by
    show (((ringRun (ringbuffer_init N, mem) ops).1).1.size + 65536
        - ((ringRun (ringbuffer_init N, mem) ops).1).1.sount) % 65536
        = ((ringRun (ringbuffer_init N, mem) ops).1).1.size
          - ((ringRun (ringbuffer_init N, mem) ops).1).1.sount
    rw [hsize, hsount]
    omega
  refine ⟨?_, hmain, hmain⟩
  show (N + 65536 - 0) % 65536 = N - 0
  omega

/-- Witness for C4 at capacity 2 after a single insert: free count 1 equals
capacity 2 minus count 1 (and the same after a peek). -/
theorem free_count_eq_capacity_sub_count_witness :
    ringbuffer_get_free_count (ringbuffer_init 2)
        = (ringbuffer_init 2).size - ringbuffer_get_count (ringbuffer_init 2) ∧
    ringbuffer_get_free_count ((ringRun (ringbuffer_init 2, fun _ => 0)
          [Op.insert 5]).1).1
        = ((ringRun (ringbuffer_init 2, fun _ => 0) [Op.insert 5]).1).1.size
          - ringbuffer_get_count ((ringRun (ringbuffer_init 2, fun _ => 0)
              [Op.insert 5]).1).1 ∧
    ringbuffer_get_free_count
        (ringbuffer_peek ((ringRun (ringbuffer_init 2, fun _ => 0)
            [Op.insert 5]).1).1
          ((ringRun (ringbuffer_init 2, fun _ => 0) [Op.insert 5]).1).2).1.1
        = (ringbuffer_peek ((ringRun (ringbuffer_init 2, fun _ => 0)
              [Op.insert 5]).1).1
            ((ringRun (ringbuffer_init 2, fun _ => 0) [Op.insert 5]).1).2).1.1.size
          - ringbuffer_get_count
              (ringbuffer_peek ((ringRun (ringbuffer_init 2, fun _ => 0)
                  [Op.insert 5]).1).1
                ((ringRun (ringbuffer_init 2, fun _ => 0) [Op.insert 5]).1).2).1.1 :=
  free_count_eq_capacity_sub_count 2 (fun _ => 0) [Op.insert 5] [5] []
    (by decide) (by decide) (by decide)

/-- C5: `ringbuffer_peek` leaves the entire buffer state (management structure
and backing array) unchanged, leaves the count unchanged, a remove performed
after the peek returns exactly what it would have returned without the peek,
and the reference peek returns is the one at the read cursor. -/
theorem peek_preserves_state (b : ringbuffer_t) (mem : Mem) :
    (ringbuffer_peek b mem).1 = (b, mem) ∧
    ringbuffer_get_count (ringbuffer_peek b mem).1.1 = ringbuffer_get_count b ∧
    ringbuffer_remove (ringbuffer_peek b mem).1.1 (ringbuffer_peek b mem).1.2
      = ringbuffer_remove b mem ∧
    (ringbuffer_peek b mem).2 = mem b.out :=
  ⟨rfl, rfl, rfl, rfl⟩

/-- C6: `ringbuffer_remove` on an empty buffer (count 0) returns whatever
stale reference occupies the slot at the read cursor and wraps the 16-bit
counter to 65535; afterwards `ringbuffer_is_empty` falsely reports non-empty,
and (for capacities below 65535) `ringbuffer_is_full` reports false and
`ringbuffer_get_free_count` reports the impossible value capacity + 1. -/
theorem remove_on_empty_underflow (b : ringbuffer_t) (mem : Mem)
    (h0 : ringbuffer_get_count b = 0) :
    (ringbuffer_remove b mem).2 = mem b.out ∧
    ringbuffer_get_count (ringbuffer_remove b mem).1.1 = 65535 ∧
    ringbuffer_is_empty (ringbuffer_remove b mem).1.1 = false ∧
    (b.size < 65535 →
      ringbuffer_is_full (ringbuffer_remove b mem).1.1 = false ∧
      ringbuffer_get_free_count (ringbuffer_remove b mem).1.1 = b.size + 1) := by
  have h0' : b.sount = 0 := h0
  have hcount : ringbuffer_get_count (ringbuffer_remove b mem).1.1 = 65535 := by
    show (b.sount + 65535) % 65536 = 65535
    rw [h0']
  refine ⟨rfl, hcount, ?_, ?_⟩
  · show (ringbuffer_get_count (ringbuffer_remove b mem).1.1 == 0) = false
    rw [hcount]
    rfl
  · intro hsz
    constructor
    · show (ringbuffer_get_count (ringbuffer_remove b mem).1.1
          == (ringbuffer_remove b mem).1.1.size) = false
      rw [hcount]
      show (65535 == b.size) = false
      simp only [beq_eq_false_iff_ne]
      omega
    · show ((ringbuffer_remove b mem).1.1.size + 65536
          - ringbuffer_get_count (ringbuffer_remove b mem).1.1) % 65536 = b.size + 1
      rw [hcount]
      show (b.size + 65536 - 65535) % 65536 = b.size + 1
      omega

/-- Witness for C6 on an empty buffer of capacity 4 whose backing array holds
the stale value 7 everywhere: remove returns 7, the counter wraps to 65535,
and the derived queries are corrupted. -/
theorem remove_on_empty_underflow_witness :
    (ringbuffer_remove (ringbuffer_init 4) (fun _ => 7)).2
        = (fun _ => 7 : Mem) (ringbuffer_init 4).out ∧
    ringbuffer_get_count (ringbuffer_remove (ringbuffer_init 4) (fun _ => 7)).1.1
        = 65535 ∧
    ringbuffer_is_empty (ringbuffer_remove (ringbuffer_init 4) (fun _ => 7)).1.1
        = false ∧
    ((ringbuffer_init 4).size < 65535 →
      ringbuffer_is_full (ringbuffer_remove (ringbuffer_init 4) (fun _ => 7)).1.1
          = false ∧
      ringbuffer_get_free_count
          (ringbuffer_remove (ringbuffer_init 4) (fun _ => 7)).1.1
          = (ringbuffer_init 4).size + 1) :=
  remove_on_empty_underflow (ringbuffer_init 4) (fun _ => 7) rfl

/-- C7: every buffer state reachable from `ringbuffer_init` by insert and
remove calls that respect the full/empty preconditions satisfies
0 <= count <= capacity, both cursors lie in [0, capacity), and the count
equals the number of inserts performed minus the number of removes. -/
theorem reachable_state_invariant (N : Nat) (mem : Mem) (ops : List Op)
    (q2 outs : List EntryRef) (hN1 : 1 ≤ N) (hN2 : N < 65536)
    (hspec : specRun N [] ops = some (q2, outs)) :
    0 ≤ ringbuffer_get_count ((ringRun (ringbuffer_init N, mem) ops).1).1 ∧
    ringbuffer_get_count ((ringRun (ringbuffer_init N, mem) ops).1).1 ≤ N ∧
    ((ringRun (ringbuffer_init N, mem) ops).1).1.in_ < N ∧
    ((ringRun (ringbuffer_init N, mem) ops).1).1.out < N ∧
    ringbuffer_get_count ((ringRun (ringbuffer_init N, mem) ops).1).1 + numRem ops
      = numIns ops := by
  have hInv := (run_couple ops N (ringbuffer_init N, mem) [] q2 outs
    (RBInv_init N mem hN1 hN2) hspec).2
  obtain ⟨hN, _, _, _, hin, hout, hqlen, hsount, _, _⟩ := hInv
  have hlen := specRun_length ops N [] q2 outs hspec
  simp only [List.length_nil] at hlen
  have hc : ringbuffer_get_count ((ringRun (ringbuffer_init N, mem) ops).1).1
      = q2.length := hsount
  refine ⟨Nat.zero_le _, ?_, hin, hout, ?_⟩
  · rw [hc]
    exact hqlen
  · rw [hc]
    omega

/-- Witness for C7 at capacity 1 with an insert followed by a remove: the
count is 0 = 1 insert - 1 remove and the cursors are both 0 < 1. -/
theorem reachable_state_invariant_witness :
    0 ≤ ringbuffer_get_count ((ringRun (ringbuffer_init 1, fun _ => 0)
        [Op.insert 4, Op.remove]).1).1 ∧
    ringbuffer_get_count ((ringRun (ringbuffer_init 1, fun _ => 0)
        [Op.insert 4, Op.remove]).1).1 ≤ 1 ∧
    ((ringRun (ringbuffer_init 1, fun _ => 0) [Op.insert 4, Op.remove]).1).1.in_
        < 1 ∧
    ((ringRun (ringbuffer_init 1, fun _ => 0) [Op.insert 4, Op.remove]).1).1.out
        < 1 ∧
    ringbuffer_get_count ((ringRun (ringbuffer_init 1, fun _ => 0)
          [Op.insert 4, Op.remove]).1).1
        + numRem [Op.insert 4, Op.remove] = numIns [Op.insert 4, Op.remove] :=
  reachable_state_invariant 1 (fun _ => 0) [Op.insert 4, Op.remove] [] [4]
    (by decide) (by decide) (by decide)

/-- C8: after `ringbuffer_init` — also when re-initializing a buffer that
already holds entries, since every field is overwritten — both cursors point
at slot 0, the count is 0, the buffer reports empty, and the capacity equals
the given size; moreover the previous contents of the backing array are
unreachable under correct subsequent use: the removes of any
precondition-respecting call sequence return the same references whatever the
backing array held at init time. -/
theorem init_resets_state (N : Nat) (mem mem2 : Mem) (ops : List Op)
    (q2 outs : List EntryRef) (hN1 : 1 ≤ N) (hN2 : N < 65536)
    (hspec : specRun N [] ops = some (q2, outs)) :
    (ringbuffer_init N).in_ = 0 ∧ (ringbuffer_init N).out = 0 ∧
    ringbuffer_get_count (ringbuffer_init N) = 0 ∧
    ringbuffer_is_empty (ringbuffer_init N) = true ∧
    (ringbuffer_init N).size = N ∧
    (ringRun (ringbuffer_init N, mem) ops).2
      = (ringRun (ringbuffer_init N, mem2) ops).2 := by
  refine ⟨rfl, rfl, rfl, rfl, rfl, ?_⟩
  have h1 := (run_couple ops N (ringbuffer_init N, mem) [] q2 outs
    (RBInv_init N mem hN1 hN2) hspec).1
  have h2 := (run_couple ops N (ringbuffer_init N, mem2) [] q2 outs
    (RBInv_init N mem2 hN1 hN2) hspec).1
  rw [h1, h2]

/-- Witness for C8 at capacity 1: two different stale backing arrays lead to
the same remove results after re-initialization. -/
theorem init_resets_state_witness :
    (ringbuffer_init 1).in_ = 0 ∧ (ringbuffer_init 1).out = 0 ∧
    ringbuffer_get_count (ringbuffer_init 1) = 0 ∧
    ringbuffer_is_empty (ringbuffer_init 1) = true ∧
    (ringbuffer_init 1).size = 1 ∧
    (ringRun (ringbuffer_init 1, fun _ => 3) [Op.insert 9, Op.remove]).2
      = (ringRun (ringbuffer_init 1, fun _ => 8) [Op.insert 9, Op.remove]).2 :=
  init_resets_state 1 (fun _ => 3) (fun _ => 8) [Op.insert 9, Op.remove] [] [9]
    (by decide) (by decide) (by decide)

/-- C9 counterexample: at the maximum 16-bit capacity 65535, inserting into a
full buffer wraps the counter to 0, so `ringbuffer_get_count` does not return
capacity + 1 as the claim states. -/
theorem insert_on_full_counterexample :
    ringbuffer_get_count fullMax = fullMax.size ∧
    ringbuffer_get_count (ringbuffer_insert fullMax (fun _ => 0) 0).1
      ≠ fullMax.size + 1 := by
  refine ⟨rfl, ?_⟩
  show (65535 + 1) % 65536 ≠ 65535 + 1
  decide

/-- C9 (amended): calling insert on a full buffer (count = capacity, capacity
a 16-bit value) still increments the 16-bit occupancy counter, so count
becomes (capacity + 1) % 65536 — that is capacity + 1 for capacities below
65535, wrapping to 0 at capacity 65535 — `ringbuffer_is_full` returns false,
and `ringbuffer_get_free_count` wraps to 65535; the overfull state is thus
not reported as full. -/
theorem insert_on_full_overfull (b : ringbuffer_t) (mem : Mem) (v : EntryRef)
    (hfull : ringbuffer_get_count b = b.size) (hsz : b.size < 65536) :
    ringbuffer_get_count (ringbuffer_insert b mem v).1 = (b.size + 1) % 65536 ∧
    ringbuffer_is_full (ringbuffer_insert b mem v).1 = false ∧
    ringbuffer_get_free_count (ringbuffer_insert b mem v).1 = 65535 := by
  have hfull' : b.sount = b.size := hfull
  have hcount : ringbuffer_get_count (ringbuffer_insert b mem v).1
      = (b.size + 1) % 65536 := by
    show (b.sount + 1) % 65536 = (b.size + 1) % 65536
    rw [hfull']
  refine ⟨hcount, ?_, ?_⟩
  · show (ringbuffer_get_count (ringbuffer_insert b mem v).1
        == (ringbuffer_insert b mem v).1.size) = false
    rw [hcount]
    show ((b.size + 1) % 65536 == b.size) = false
    simp only [beq_eq_false_iff_ne]
    omega
  · show ((ringbuffer_insert b mem v).1.size + 65536
        - ringbuffer_get_count (ringbuffer_insert b mem v).1) % 65536 = 65535
    rw [hcount]
    show (b.size + 65536 - (b.size + 1) % 65536) % 65536 = 65535
    omega

/-- Witness for the amended C9 on a full buffer of capacity 3: the count
becomes 4, the buffer no longer reports full, and the free count is 65535. -/
theorem insert_on_full_overfull_witness :
    ringbuffer_get_count (ringbuffer_insert full3 (fun _ => 0) 9).1
        = (full3.size + 1) % 65536 ∧
    ringbuffer_is_full (ringbuffer_insert full3 (fun _ => 0) 9).1 = false ∧
    ringbuffer_get_free_count (ringbuffer_insert full3 (fun _ => 0) 9).1
        = 65535 :=
  insert_on_full_overfull full3 (fun _ => 0) 9 rfl (by decide)

/-- C10: every operation other than init leaves the buffer's capacity (`size`
field) and its binding to the backing storage (`start` and `end` fields)
unchanged, for every buffer state, preconditions violated or not: the
mutating operations insert/remove and the state-threaded peek preserve all
three fields (`ringbuffer_get_count`, `ringbuffer_get_free_count`,
`ringbuffer_is_empty` and `ringbuffer_is_full` are pure functions of the
state in this embedding, mirroring the C code's read-only access). -/
theorem ops_preserve_capacity_binding (b : ringbuffer_t) (mem : Mem)
    (v : EntryRef) :
    ((ringbuffer_insert b mem v).1.size = b.size ∧
      (ringbuffer_insert b mem v).1.start = b.start ∧
      (ringbuffer_insert b mem v).1.endp = b.endp) ∧
    ((ringbuffer_remove b mem).1.1.size = b.size ∧
      (ringbuffer_remove b mem).1.1.start = b.start ∧
      (ringbuffer_remove b mem).1.1.endp = b.endp) ∧
    ((ringbuffer_peek b mem).1.1.size = b.size ∧
      (ringbuffer_peek b mem).1.1.start = b.start ∧
      (ringbuffer_peek b mem).1.1.endp = b.endp) :=
  ⟨⟨rfl, rfl, rfl⟩, ⟨rfl, rfl, rfl⟩, ⟨rfl, rfl, rfl⟩⟩
